import Mathlib

/-!
Verification development for the Elden Ring save-file tracker core.

The embedding covers `src/assets/js/binaryParser.js` (class `BinaryParser`)
and the tracker core (class `TrackerCore`).  Conventions of the shallow
embedding:

* A JavaScript byte buffer (`Uint8Array` / `ArrayBuffer`) is a `List Nat`
  whose elements are the byte values.  Typed-array slicing (`slice`,
  `subarray`), which clamps out-of-range indices instead of failing, is
  `List.drop`/`List.take`, which clamp the same way.
* JavaScript exceptions (caught by the `try`/`catch` in `parseInventory`
  and `getSlotNames`) are modelled with `Except String`; the `catch`
  branch turns the carried message into the failure result value.
* Numbers are `Nat`; all byte arithmetic in the source is on values
  `0 ≤ v < 2^32`, exactly representable in JS floats, so no overflow or
  rounding modelling is needed except for the statistics percentage
  `Math.round((owned / total) * 100)`, whose IEEE-754 binary64 division
  and multiplication are modelled bit-exactly (see `roundPct`).
-/

namespace BinaryParser

/-- Model of `this.PATTERN_NORMAL = new Uint8Array([0xB0, 0xAD, 0x01, 0x00, 0x01, 0xFF, 0xFF, 0xFF])` -/
def PATTERN_NORMAL : List Nat := [0xB0, 0xAD, 0x01, 0x00, 0x01, 0xFF, 0xFF, 0xFF]

/-- Model of `this.PATTERN_DLC = new Uint8Array([0xB0, 0xAD, 0x01, 0x00, 0x01])` -/
def PATTERN_DLC : List Nat := [0xB0, 0xAD, 0x01, 0x00, 0x01]

/-- Model of `this.FILE_SIGNATURE = new Int8Array([66, 78, 68, 52])` ("BND4").
The `Int8Array` view compares bytes as signed values, which agrees with
unsigned byte-for-byte comparison; we keep raw byte values. -/
def FILE_SIGNATURE : List Nat := [66, 78, 68, 52]

/-- Model of `validateFile(fileData)`: compares `fileData.slice(0, 4)` with
`FILE_SIGNATURE` via `bufferEqual` (length check plus byte-for-byte
equality).  For a file shorter than 4 bytes the slice is shorter than the
signature and the length check fails, matching `List.take`. -/
def validateFile (fileData : List Nat) : Bool :=
  fileData.take 4 == FILE_SIGNATURE

/-- Worker for `findPattern(buffer, pattern)`: the `for` loop over index
`i`.  At each position the source checks `buffer[i] === pattern[0]` and
then `bufferEqual(buffer.subarray(i, i + pattern.byteLength), pattern)`;
for the non-empty patterns used in this file the first check is subsumed
by the second, and `bufferEqual`'s length test makes a match near the end
of the buffer fail, which is exactly `take`-equality on lists. -/
def findPatternFrom (pat : List Nat) : List Nat → Nat → Option Nat
  | [], _ => none
  | b :: bs, i =>
    if (b :: bs).take pat.length == pat then some i
    else findPatternFrom pat bs (i + 1)

/-- Model of `findPattern(buffer, pattern)`: lowest offset of a full byte-for-byte
occurrence of `pat`, or `null` (here `none`). -/
def findPattern (buffer pat : List Nat) : Option Nat :=
  findPatternFrom pat buffer 0

/-- The ten literal `(start, end)` pairs of `getSlots` (the code slices
`subarray(start, end + 1)`). -/
def slotRanges : List (Nat × Nat) :=
  [(0x00000310, 0x0028030f), (0x00280320, 0x0050031f),
   (0x00500330, 0x0078032f), (0x00780340, 0x00a0033f),
   (0x00a00350, 0x00c8034f), (0x00c80360, 0x00f0035f),
   (0x00f00370, 0x0118036f), (0x01180380, 0x0140037f),
   (0x01400390, 0x0168038f), (0x016803a0, 0x0190039f)]

/-- Model of `getSlots(fileData)`: ten `subarray(start, end + 1)` views.
`subarray` clamps both ends to the available data, as `drop`/`take` do. -/
def getSlots (fileData : List Nat) : List (List Nat) :=
  slotRanges.map (fun r => (fileData.drop r.1).take (r.2 + 1 - r.1))

/-- The ten per-slot character-name offsets of `getCharacterNames`. -/
def nameOffsets : List Nat :=
  [0x1901d0e, 0x1901f5a, 0x19021a6, 0x19023f2, 0x190263e,
   0x190288a, 0x1902ad6, 0x1902d22, 0x1902f6e, 0x19031ba]

/-- Pair the bytes of a buffer into little-endian 16-bit code units, as
`new Uint16Array(buffer)` does on a little-endian host; a trailing odd
byte cannot occur because the constructor rejects odd lengths first. -/
def toU16 : List Nat → List Nat
  | b0 :: b1 :: rest => (b0 + 256 * b1) :: toU16 rest
  | _ => []

/-- One offset's worth of `getCharacterNames`: take the 32-byte window
`fileData.slice(offset, offset + 32)` (clamped on short files), build a
`Uint16Array` over it — which throws a `RangeError` when the clamped
window has odd length — then squeeze each code unit through
`new Int8Array(Array.from(...))`, i.e. truncate it to its low byte.  The
final `TextDecoder("utf-8").decode` / `replaceAll("\x00", "")` step is
presentation-only, never throws, and no claim inspects the decoded text,
so the name is carried as this byte list. -/
def readName (fileData : List Nat) (off : Nat) : Except String (List Nat) :=
  let w := (fileData.drop off).take 32
  if w.length % 2 = 1 then
    .error "RangeError: byte length of Uint16Array should be a multiple of 2"
  else
    .ok ((toU16 w).map (fun v => v % 256))

/-- Model of `getCharacterNames(fileData)`: maps `readName` over the ten offsets;
the first `RangeError` aborts the surrounding `map` (propagated to the
caller's `try`/`catch`). -/
def getCharacterNames (fileData : List Nat) : Except String (List (List Nat)) :=
  nameOffsets.mapM (readName fileData)

/-- End-of-inventory scan of `getInventory`: from `index`, find the first
run of 50 zero bytes in `slot.subarray(index, slot.byteLength)` and
return `slot.subarray(index, index + endIndex + 6)`; `null` when the run
is absent.  The `Bool` is the `this.isDlcFile` flag set by the caller. -/
def endScan (slot : List Nat) (index : Nat) (isDlc : Bool) :
    Option (List Nat × Bool) :=
  match findPattern (slot.drop index) (List.replicate 50 0) with
  | none => none
  | some endIndex => some ((slot.drop index).take (endIndex + 6), isDlc)

/-- Model of `getInventory(slot)`: try `PATTERN_NORMAL` first, advancing by
`byteLength + 8`; only if it is absent try `PATTERN_DLC`, advancing by
`byteLength + 3`; `null` when neither occurs.  The mutation of
`this.isDlcFile` is modelled as the second component of the result. -/
def getInventory (slot : List Nat) : Option (List Nat × Bool) :=
  match findPattern slot PATTERN_NORMAL with
  | some index => endScan slot (index + 8 + 8) false
  | none =>
    match findPattern slot PATTERN_DLC with
    | some index => endScan slot (index + 5 + 3) true
    | none => none

/-- Worker for `splitIntoChunks`, with explicit fuel.  The source loop
`for (let i = 0; i < array.length; i += chunkSize)` advances by
`n' + 1 ≥ 1` per iteration, so it runs at most `array.length` times; the
fuel makes that bound structural.  Each iteration pushes
`array.slice(i, i + chunkSize)` — including a final chunk shorter than
the chunk size. -/
def chunksFuel (n' : Nat) : Nat → List Nat → List (List Nat)
  | _, [] => []
  | 0, _ => []
  | fuel + 1, a :: as => (a :: as.take n') :: chunksFuel n' fuel (as.drop n')

/-- Model of `splitIntoChunks(array, chunkSize)`.  The source never calls it with
`chunkSize = 0` (which would not terminate); that case is mapped to `[]`. -/
def splitIntoChunks (array : List Nat) (chunkSize : Nat) : List (List Nat) :=
  match chunkSize with
  | 0 => []
  | n' + 1 => chunksFuel n' array.length array

/-- Hex digit of `Number.prototype.toString(16)`: `0`–`9` then lowercase
`a`–`f`. -/
def hexDigit (d : Nat) : Char :=
  if d < 10 then Char.ofNat (48 + d) else Char.ofNat (87 + d)

/-- Worker for `Number(decimal).toString(16)` on naturals, with fuel
(`n / 16` strictly decreases while `n ≥ 16`, so `n` itself is enough
fuel). -/
def natToHexAux : Nat → Nat → List Char
  | 0, n => [hexDigit n]
  | fuel + 1, n =>
    if n < 16 then [hexDigit n]
    else natToHexAux fuel (n / 16) ++ [hexDigit (n % 16)]

/-- Model of `Number(decimal).toString(16)` for a natural number: most significant
digit first, no leading zeros (and `"0"` for zero). -/
def natToHex (n : Nat) : List Char :=
  natToHexAux n n

/-- Model of `decimalToHex(decimal, padding = 2)`: hex digits of `decimal`,
left-padded with `'0'` while shorter than `padding` (the `while` loop
prepends exactly `padding - length` zeros). -/
def decimalToHex (decimal : Nat) (padding : Nat) : List Char :=
  let hex := natToHex decimal
  List.replicate (padding - hex.length) '0' ++ hex

/-- Model of `convertIdToHex(idBytes)`: reverse `idBytes.slice(0, 4)`, render each
of the 4 positions with `decimalToHex(reversed[i], 2)`, and upper-case
the result.  When `idBytes` has fewer than 4 bytes, `reversed[i]` is
`undefined` for the missing positions and `Number(undefined).toString(16)`
is the three-character string `"NaN"`, which the padding loop leaves
unchanged. -/
def convertIdToHex (idBytes : List Nat) : String :=
  let reversed := (idBytes.take 4).reverse
  let hexId := (List.range 4).flatMap (fun i =>
    match reversed.get? i with
    | some b => decimalToHex b 2
    | none => ['N', 'a', 'N'])
  String.mk (hexId.map Char.toUpper)

/-- The chunk-to-identifier stage of `parseInventory`: split the located
inventory bytes with the layout's chunk size (8 for the expansion/DLC
layout, 16 for the standard one) and map `convertIdToHex` over the
chunks. -/
def decodeIds (inventory : List Nat) (isDlc : Bool) : List String :=
  (splitIntoChunks inventory (if isDlc then 8 else 16)).map convertIdToHex

/-- Result value of `parseInventory`: `{ success: true, ids, isDlc,
characterName, totalItems }` or `{ success: false, error }`. -/
inductive ParseResult where
  | ok (ids : List String) (isDlc : Bool) (characterName : List Nat)
      (totalItems : Nat)
  | err (msg : String)
deriving DecidableEq

/-- JavaScript indexing `l[i]` for an arbitrary (possibly negative or
too large) index: `undefined` (`none`) outside `0 ≤ i < l.length`. -/
def jsIndex (l : List (List Nat)) (i : Int) : Option (List Nat) :=
  if i < 0 then none else l.get? i.toNat

/-- Model of `parseInventory(fileData, slotIndex)`.  The `try`/`catch` wrapper
converts any exception raised inside (the `RangeError` of
`getCharacterNames` on a window of odd length, or the `TypeError` from
`getInventory(undefined)` when `slots[slotIndex]` is `undefined`) into
`{ success: false, error: error.message }`. -/
def parseInventory (fileData : List Nat) (slotIndex : Int) : ParseResult :=
  if !validateFile fileData then .err "Invalid save file format"
  else
    match getCharacterNames fileData with
    | .error e => .err e
    | .ok characterNames =>
      let characterName := jsIndex characterNames slotIndex
      let slots := getSlots fileData
      match jsIndex slots slotIndex with
      | none => .err "Cannot read properties of undefined (reading 'byteLength')"
      | some slot =>
        match getInventory slot with
        | none => .err "Could not find inventory data in slot"
        | some (inventoryData, isDlc) =>
          let itemIds := decodeIds inventoryData isDlc
          .ok itemIds isDlc (characterName.getD []) itemIds.length

/-- Result value of `getSlotNames`: `{ success: true, names }` or
`{ success: false, error }`. -/
inductive NamesResult where
  | ok (names : List (List Nat))
  | err (msg : String)
deriving DecidableEq

/-- Model of `getSlotNames(fileData)`: signature check, then the character names;
a `RangeError` from the odd-length window case is caught and surfaced as
the failure result. -/
def getSlotNames (fileData : List Nat) : NamesResult :=
  if !validateFile fileData then .err "Invalid save file format"
  else
    match getCharacterNames fileData with
    | .error e => .err e
    | .ok names => .ok names

end BinaryParser

namespace TrackerCore

/-- Value of a single hexadecimal digit as `parseInt(·, 16)` accepts it
(both letter cases), `none` for any other character. -/
def hexVal (c : Char) : Option Nat :=
  if '0' ≤ c ∧ c ≤ '9' then some (c.toNat - 48)
  else if 'a' ≤ c ∧ c ≤ 'f' then some (c.toNat - 87)
  else if 'A' ≤ c ∧ c ≤ 'F' then some (c.toNat - 55)
  else none

/-- Model of `parseInt(itemId, 16)`: parse the maximal leading run of hex digits;
`none` stands for `NaN` (no digit at all).  Leading whitespace, a sign
and a `0x` prefix — accepted by `parseInt` but never present in the
8-hex-digit identifiers this tracker feeds it — are elided, and the
values (at most 8 digits, so below 2^32) are far inside the exact range
of JS floats. -/
def parseIntHex (s : String) : Option Nat :=
  let ds := s.data.takeWhile (fun c => (hexVal c).isSome)
  if ds = [] then none
  else some (ds.foldl (fun acc c => 16 * acc + (hexVal c).getD 0) 0)

/-- Model of `determineCategory(itemId)`: `parseInt(itemId, 16)` then the literal
chain of inclusive range tests, first match wins, `'Other'` otherwise.
When `parseInt` yields `NaN` every comparison is false and the chain
falls through to `'Other'`, which the `none` branch reproduces. -/
def determineCategory (itemId : String) : String :=
  match parseIntHex itemId with
  | none => "Other"
  | some id =>
    if 0x00F42400 ≤ id ∧ id ≤ 0x017D7840 then "Weapons"
    else if 0x10000000 ≤ id ∧ id ≤ 0x14000000 then "Armor"
    else if 0x20000000 ≤ id ∧ id ≤ 0x24000000 then "Talismans"
    else if 0x40000000 ≤ id ∧ id ≤ 0x48000000 then "Magic"
    else if 0x80000000 ≤ id ∧ id ≤ 0x88000000 then "Ashes of War"
    else if 0x90000000 ≤ id ∧ id ≤ 0x98000000 then "Spirit Ashes"
    else if 0x400007F0 ≤ id ∧ id ≤ 0x40000850 then "Bell Bearings"
    else if 0x40002400 ≤ id ∧ id ≤ 0x40002500 then "Cookbooks"
    else if 0x40000BC0 ≤ id ∧ id ≤ 0x40000BF0 then "Crystal Tears"
    else if 0x40000000 ≤ id ∧ id ≤ 0x40001000 then "Key Items"
    else "Other"

/-- One catalog entry's metadata (`itemData` in the source): display
name, and the optional `type`, `hint` and `multiple` fields read with
`||` defaults. -/
structure ItemData where
  name : String
  type : Option String
  hint : Option String
  multiple : Option Bool
deriving DecidableEq

/-- The merged location data: region name → subregion name → identifier
→ entry, as an insertion-ordered association structure (JS object
iteration via `Object.entries` preserves string-key insertion order). -/
def Catalog := List (String × List (String × List (String × ItemData)))

/-- Model of `itemData.type || 'unknown'` and `itemData.hint || ''`: JS `||`
treats both `undefined` and the empty string as falsy. -/
def jsOrStr (o : Option String) (dflt : String) : String :=
  match o with
  | none => dflt
  | some s => if s = "" then dflt else s

/-- The regex step of `generateWikiUrl`: `name.replace(/ \+\d+$/, "")`,
removing one trailing group of a space, a plus sign and one or more
digits. -/
def stripUpgradeTag (s : String) : String :=
  let rev := s.data.reverse
  let digits := rev.takeWhile (fun c => c.isDigit)
  match digits, rev.drop digits.length with
  | _ :: _, '+' :: ' ' :: rest => String.mk rest.reverse
  | _, _ => s

/-- Model of `generateWikiUrl(itemName)`: strip a trailing upgrade tag, replace
spaces with `'+'`, and prepend the wiki base URL. -/
def generateWikiUrl (itemName : String) : String :=
  let cleanName := stripUpgradeTag itemName
  let urlName := String.mk (cleanName.data.map (fun c => if c = ' ' then '+' else c))
  "https://eldenring.wiki.fextralife.com/" ++ urlName

/-- One element of the enriched list built by `crossReference`. -/
structure EnrichedItem where
  id : String
  name : String
  owned : Bool
  region : String
  subregion : String
  type : String
  hint : String
  farmable : Bool
  wikiUrl : String
deriving DecidableEq

/-- Model of `crossReference`: build an (identifier) set from the decoded
inventory ids — membership in `Set` equals list membership — then walk
every region/subregion/item triple of the location data in iteration
order, pushing one enriched item per triple. -/
def crossReference (inventoryIds : List String) (locationData : Catalog) :
    List EnrichedItem :=
  locationData.flatMap (fun rs =>
    rs.2.flatMap (fun ss =>
      ss.2.map (fun it =>
        { id := it.1
          name := it.2.name
          owned := inventoryIds.contains it.1
          region := rs.1
          subregion := ss.1
          type := jsOrStr it.2.type "unknown"
          hint := jsOrStr it.2.hint ""
          farmable := (it.2.multiple).getD false
          wikiUrl := generateWikiUrl it.2.name })))

/-- Smallest `k` with `b ≤ a * 2^k`, found by doubling `a`; the fuel
bounds the search and any fuel of at least `log2 (b / a)` is enough.
Used to normalize the significand of an IEEE-754 binary64 quotient. -/
def shiftFor : Nat → Nat → Nat → Nat
  | 0, _, _ => 0
  | fuel + 1, a, b => if b ≤ a then 0 else shiftFor fuel (2 * a) b + 1

/-- Round the exact quotient `num / den` to the nearest integer with
ties to even — the IEEE-754 default rounding applied to a significand. -/
def roundTE (num den : Nat) : Nat :=
  if den < 2 * (num % den) then num / den + 1
  else if 2 * (num % den) < den then num / den
  else if num / den % 2 = 0 then num / den else num / den + 1

/-- Normalization shift for the double quotient `owned / total` (with
`1 ≤ owned ≤ total`): the unique `k` with
`2^52 ≤ (owned / total) * 2^(52 + k) < 2^53`. -/
def divShift (owned total : Nat) : Nat := shiftFor total owned total

/-- Correctly rounded 53-bit significand of the binary64 quotient
`owned / total`: the double value is `divSig / 2^(52 + divShift)`. -/
def divSig (owned total : Nat) : Nat :=
  roundTE (owned * 2 ^ (52 + divShift owned total)) total

/-- Renormalization shift for the binary64 product `quotient * 100`:
the significand grows by a factor of `100 < 2^7`, so the product is
scaled back down by 6 or 7 bits. -/
def mulShift (owned total : Nat) : Nat :=
  if divSig owned total * 100 < 2 ^ 59 then 6 else 7

/-- Correctly rounded 53-bit significand of the binary64 product
`(owned / total) * 100`. -/
def mulSig (owned total : Nat) : Nat :=
  roundTE (divSig owned total * 100) (2 ^ mulShift owned total)

/-- Binary exponent of the product: its double value is
`mulSig / 2^pctExp`. -/
def pctExp (owned total : Nat) : Nat :=
  52 + divShift owned total - mulShift owned total

/-- Model of `total > 0 ? Math.round((owned / total) * 100) : 0` as
IEEE-754 binary64 arithmetic: `owned` and `total` convert to doubles
exactly (they are list lengths, far below `2^53`), the division and the
multiplication by 100 are each correctly rounded to 53 significand bits
(ties to even), and `Math.round` returns the integer nearest to the
resulting double with ties toward `+∞`, i.e. `⌊value + 1/2⌋`, computed
here as `(2 * mulSig + 2^pctExp) / 2^(pctExp + 1)` in integers.
`0 / total` is an exact `+0.0`, handled by the `owned = 0` branch; the
model covers the normal-range case `owned ≤ total`, which `calculateStats`
always satisfies (`owned` counts a sublist of the `total` items). -/
def roundPct (owned total : Nat) : Nat :=
  if 0 < total then
    if owned = 0 then 0
    else (2 * mulSig owned total + 2 ^ pctExp owned total) / 2 ^ (pctExp owned total + 1)
  else 0

/-- Per-key counters used by the category and region breakdowns. -/
structure GroupStats where
  total : Nat
  owned : Nat
  missing : Nat
  percentage : Nat
deriving DecidableEq

/-- One `forEach` step of the breakdown accumulators: create the key's
counter object on first sight (insertion order — appended at the end),
then bump `total` and `owned`/`missing`. -/
def bumpGroup (m : List (String × GroupStats)) (key : String) (owned : Bool) :
    List (String × GroupStats) :=
  match m with
  | [] =>
    [(key, ⟨1, if owned then 1 else 0, if owned then 0 else 1, 0⟩)]
  | (k, g) :: rest =>
    if k = key then
      (k, ⟨g.total + 1, g.owned + (if owned then 1 else 0),
           g.missing + (if owned then 0 else 1), g.percentage⟩) :: rest
    else (k, g) :: bumpGroup rest key owned

/-- Final pass of the breakdowns: set each key's `percentage`. -/
def finishGroups (m : List (String × GroupStats)) : List (String × GroupStats) :=
  m.map (fun kg => (kg.1, { kg.2 with percentage := roundPct kg.2.owned kg.2.total }))

/-- Model of `calculateCategoryStats()`: fold the enriched list, keyed by
`determineCategory(item.id)` (recomputed, not cached), then fill in the
percentages. -/
def calculateCategoryStats (enrichedItems : List EnrichedItem) :
    List (String × GroupStats) :=
  finishGroups (enrichedItems.foldl
    (fun m item => bumpGroup m (determineCategory item.id) item.owned) [])

/-- Model of `calculateRegionalStats()`: same fold keyed by `item.region`. -/
def calculateRegionalStats (enrichedItems : List EnrichedItem) :
    List (String × GroupStats) :=
  finishGroups (enrichedItems.foldl
    (fun m item => bumpGroup m item.region item.owned) [])

/-- The `this.stats` snapshot built by `calculateStats()`. -/
structure Stats where
  total : Nat
  owned : Nat
  missing : Nat
  percentage : Nat
  categories : List (String × GroupStats)
  regions : List (String × GroupStats)
deriving DecidableEq

/-- Model of `calculateStats()` over a given enriched list. -/
def calculateStats (enrichedItems : List EnrichedItem) : Stats :=
  let total := enrichedItems.length
  let owned := (enrichedItems.filter (fun item => item.owned)).length
  { total := total
    owned := owned
    missing := total - owned
    percentage := roundPct owned total
    categories := calculateCategoryStats enrichedItems
    regions := calculateRegionalStats enrichedItems }

/-- The filter criteria object; absent fields are `none`.  JS truthiness
(`if (criteria.region)`) also rejects an empty string. -/
structure Criteria where
  status : Option String := none
  region : Option String := none
  category : Option String := none
  search : Option String := none

/-- JS truthiness of an optional string field. -/
def truthy : Option String → Bool
  | none => false
  | some s => s ≠ ""

/-- Lower-casing for the search criterion (`toLowerCase` on the ASCII
names and search terms used here agrees with `Char.toLower`). -/
def lowerChars (s : String) : List Char :=
  s.data.map Char.toLower

/-- Model of `String.prototype.includes`: some contiguous slice of `hay` equals
`needle`. -/
def strIncludes (hay needle : List Char) : Bool :=
  (List.range (hay.length + 1)).any (fun i => (hay.drop i).take needle.length == needle)

/-- Model of `filterItems(criteria)` over a given enriched list: the four
criteria applied in sequence, each a plain `filter`. -/
def filterItems (criteria : Criteria) (enrichedItems : List EnrichedItem) :
    List EnrichedItem :=
  let filtered := enrichedItems
  let filtered :=
    if criteria.status = some "owned" then filtered.filter (fun item => item.owned)
    else if criteria.status = some "missing" then filtered.filter (fun item => !item.owned)
    else filtered
  let filtered :=
    if truthy criteria.region then
      filtered.filter (fun item => item.region == (criteria.region).getD "")
    else filtered
  let filtered :=
    if truthy criteria.category then
      filtered.filter (fun item => determineCategory item.id == (criteria.category).getD "")
    else filtered
  let filtered :=
    if truthy criteria.search then
      filtered.filter (fun item =>
        strIncludes (lowerChars item.name) (lowerChars ((criteria.search).getD "")))
    else filtered
  filtered

end TrackerCore

namespace Verification

open BinaryParser TrackerCore

/-- Spec-side decoder for claim C9: read an even-length hex string back
into bytes, two digits per byte, most significant digit first (the
inverse direction of the byte-order transform described in §3 of the
spec). -/
def hexPairsToBytes : List Char → List Nat
  | a :: b :: rest =>
    (16 * ((hexVal a).getD 0) + (hexVal b).getD 0) :: hexPairsToBytes rest
  | _ => []

/-- One standard-layout inventory record as §3 of the spec describes it:
the 4 identifier bytes followed by the 12 bytes the core does not use
(zero in the synthetic slots of the amended claim C3). -/
def record (id : List Nat) : List Nat := id ++ List.replicate 12 0

/-- The record region of a synthetic standard-layout slot: the records
concatenated in order. -/
def recordRegion (ids : List (List Nat)) : List Nat := ids.flatMap record

/-- A well-formed identifier for the synthetic slots of claim C3: exactly
4 bytes, at least one of them non-zero. -/
abbrev goodId (id : List Nat) : Prop :=
  id.length = 4 ∧ id.any (fun b => b != 0) = true

/-- Length of an identifier after stripping trailing zero bytes; this is
where the 50-zero terminator scan lands inside the last record. -/
def coreLen (id : List Nat) : Nat :=
  (id.reverse.dropWhile (fun b => b == 0)).length

/-- Shorthand for the inventory-terminator scan of `getInventory`: first
offset of a run of 50 zero bytes. -/
def firstRun (l : List Nat) : Option Nat :=
  findPattern l (List.replicate 50 0)

/-- The concrete synthetic slot of the spec's §8 scenario: standard
marker, 8 padding bytes, one 16-byte record with identifier bytes
`EF BE AD DE` and a 12-zero tail, then the 50-zero terminator. -/
def slotScenario : List Nat :=
  PATTERN_NORMAL ++ List.replicate 8 0
    ++ ([0xEF, 0xBE, 0xAD, 0xDE] ++ List.replicate 12 0)
    ++ List.replicate 50 0

/-- A synthetic slot identical to `slotScenario` except that the 12
unused tail bytes of its single record are `0xFF` instead of zero. -/
def slotTailFF : List Nat :=
  PATTERN_NORMAL ++ List.replicate 8 0
    ++ ([0xEF, 0xBE, 0xAD, 0xDE] ++ List.replicate 12 0xFF)
    ++ List.replicate 50 0

/-- The located inventory byte range of `slotTailFF`: the terminator scan
matches at offset 16 (the 50-zero run starts right after the record), so
the range is the whole record plus 6 terminator bytes. -/
def invTailFF : List Nat :=
  [0xEF, 0xBE, 0xAD, 0xDE] ++ List.replicate 12 0xFF ++ List.replicate 6 0

/-- A complete 866-byte save file: valid `BND4` signature, zero padding
up to slot 0's base offset `0x310`, then the §8 scenario slot.  It is
far shorter than the last slot's end offset `0x190039f + 1`. -/
def fileShort : List Nat :=
  FILE_SIGNATURE ++ List.replicate 780 0 ++ slotScenario

/-- Flat enumeration of the (region, subregion, identifier, entry)
triples of a catalog, in catalog iteration order. -/
def catalogTriples (locationData : Catalog) :
    List (String × String × String × ItemData) :=
  locationData.flatMap (fun rs =>
    rs.2.flatMap (fun ss => ss.2.map (fun it => (rs.1, ss.1, it.1, it.2))))

/-- The enriched item a triple produces when the decoded-identifier list
is empty: ownership is false, everything else copied from the entry. -/
def enrichUnowned (t : String × String × String × ItemData) : EnrichedItem :=
  { id := t.2.2.1
    name := t.2.2.2.name
    owned := false
    region := t.1
    subregion := t.2.1
    type := jsOrStr t.2.2.2.type "unknown"
    hint := jsOrStr t.2.2.2.hint ""
    farmable := (t.2.2.2.multiple).getD false
    wikiUrl := generateWikiUrl t.2.2.2.name }

/-- A minimal owned enriched item, for concrete statistics inputs. -/
def itemOwned : EnrichedItem :=
  { id := "", name := "", owned := true, region := "", subregion := "",
    type := "", hint := "", farmable := false, wikiUrl := "" }

/-- A minimal missing enriched item, for concrete statistics inputs. -/
def itemMissing : EnrichedItem :=
  { id := "", name := "", owned := false, region := "", subregion := "",
    type := "", hint := "", farmable := false, wikiUrl := "" }

/-- Two hundred enriched items of which 29 are owned: the percentage is
29/200 × 100 = 14.5 exactly, but the binary64 value of `29 / 200` is
slightly below `0.145` and the double product is
`14.499999999999998...`, which `Math.round` takes to 14, not 15. -/
def items29of200 : List EnrichedItem :=
  List.replicate 29 itemOwned ++ List.replicate 171 itemMissing

end Verification

namespace Verification

/-- Claim C1, counterexample: classifying the lower bound of the Bell
Bearings row, `0x400007F0`, does not return "Bell Bearings": the broad
Magic range `0x40000000`–`0x48000000` is tested before the nested Bell
Bearings range, so the code returns "Magic". -/
theorem c1_counterexample :
    TrackerCore.determineCategory "400007F0" = "Magic" ∧ "Magic" ≠ "Bell Bearings" := by
  constructor
  · decide
  · decide

/-- Claim C1, amended: `determineCategory` is total and deterministic (a
pure function whose result is always one of the eleven category names,
"Other" when no range matches); the first matching range in the literal
code order wins, so the lower bounds of the six non-nested rows map to
their own row's category, while the lower bounds of the Bell Bearings,
Cookbooks, Crystal Tears and Key Items rows — all nested inside the
Magic range, which is tested before them — map to "Magic". -/
theorem c1_amended :
    (∀ s : String, TrackerCore.determineCategory s ∈
      ["Weapons", "Armor", "Talismans", "Magic", "Ashes of War", "Spirit Ashes",
       "Bell Bearings", "Cookbooks", "Crystal Tears", "Key Items", "Other"])
    ∧ TrackerCore.determineCategory "00F42400" = "Weapons"
    ∧ TrackerCore.determineCategory "10000000" = "Armor"
    ∧ TrackerCore.determineCategory "20000000" = "Talismans"
    ∧ TrackerCore.determineCategory "40000000" = "Magic"
    ∧ TrackerCore.determineCategory "80000000" = "Ashes of War"
    ∧ TrackerCore.determineCategory "90000000" = "Spirit Ashes"
    ∧ TrackerCore.determineCategory "400007F0" = "Magic"
    ∧ TrackerCore.determineCategory "40002400" = "Magic"
    ∧ TrackerCore.determineCategory "40000BC0" = "Magic"
    ∧ TrackerCore.determineCategory "FEDCBA98" = "Other" := by
  refine ⟨fun s => ?_, by decide, by decide, by decide, by decide, by decide,
    by decide, by decide, by decide, by decide, by decide⟩
  unfold TrackerCore.determineCategory
  rcases TrackerCore.parseIntHex s with _ | id
  · decide
  · dsimp only
    split_ifs <;> decide


/-- Fuel does not matter for `chunksFuel` once it is at least the length
of the list being split. -/
theorem chunksFuel_fuel_irrel (n' : Nat) :
    ∀ (f1 f2 : Nat) (l : List Nat), l.length ≤ f1 → l.length ≤ f2 →
      BinaryParser.chunksFuel n' f1 l = BinaryParser.chunksFuel n' f2 l := by
  intro f1
  induction f1 with
  | zero =>
    intro f2 l h1 _
    have : l = [] := List.eq_nil_of_length_eq_zero (Nat.le_zero.1 h1)
    subst this
    cases f2 <;> rfl
  | succ f1 ih =>
    intro f2 l h1 h2
    cases l with
    | nil => cases f2 <;> rfl
    | cons a as =>
      cases f2 with
      | zero => simp at h2
      | succ f2 =>
        simp only [BinaryParser.chunksFuel]
        congr 1
        apply ih <;> simp only [List.length_drop] <;> simp at h1 h2 <;> omega

/-- Unfolding equation for `splitIntoChunks` on a non-empty list and a
positive chunk size: one chunk of `take`, then the chunks of `drop`. -/
theorem splitIntoChunks_cons (l : List Nat) (n : Nat) (hl : l ≠ []) :
    BinaryParser.splitIntoChunks l (n + 1) =
      l.take (n + 1) :: BinaryParser.splitIntoChunks (l.drop (n + 1)) (n + 1) := by
  cases l with
  | nil => exact absurd rfl hl
  | cons a as =>
    simp only [BinaryParser.splitIntoChunks, List.length_cons, BinaryParser.chunksFuel,
      List.take_succ_cons, List.drop_succ_cons]
    congr 1
    apply chunksFuel_fuel_irrel <;> simp only [List.length_drop] <;> omega

/-- Chunks of the empty list. -/
theorem splitIntoChunks_nil (n : Nat) : BinaryParser.splitIntoChunks [] n = [] := by
  cases n <;> rfl

/-- Concatenating the chunks gives back the original list. -/
theorem splitIntoChunks_flatten (n : Nat) :
    ∀ l : List Nat, (BinaryParser.splitIntoChunks l (n + 1)).flatten = l
  | [] => by simp [splitIntoChunks_nil]
  | a :: as => by
    rw [splitIntoChunks_cons _ _ (by simp)]
    rw [List.flatten_cons, splitIntoChunks_flatten n ((a :: as).drop (n + 1))]
    exact List.take_append_drop _ _
  termination_by l => l.length
  decreasing_by simp; omega

/-- The number of chunks is the length divided by the chunk size,
rounded up — a final partial chunk counts. -/
theorem splitIntoChunks_length (n : Nat) :
    ∀ l : List Nat,
      (BinaryParser.splitIntoChunks l (n + 1)).length = (l.length + n) / (n + 1)
  | [] => by simp [splitIntoChunks_nil, Nat.div_eq_of_lt (by omega : n < n + 1)]
  | a :: as => by
    rw [splitIntoChunks_cons _ _ (by simp)]
    rw [List.length_cons, splitIntoChunks_length n ((a :: as).drop (n + 1))]
    simp only [List.length_drop, List.length_cons]
    rcases Nat.lt_or_ge (as.length + 1) (n + 1) with h | h
    · have h1 : as.length + 1 - (n + 1) + n < n + 1 := by omega
      rw [Nat.div_eq_of_lt h1]
      have h2 := Nat.div_eq_of_lt_le
        (by omega : 1 * (n + 1) ≤ as.length + 1 + n)
        (by omega : as.length + 1 + n < (1 + 1) * (n + 1))
      omega
    · have heq : as.length + 1 + n = (as.length + 1 - (n + 1) + n) + (n + 1) := by omega
      rw [heq, Nat.add_div_right _ (Nat.succ_pos n)]
  termination_by l => l.length
  decreasing_by simp; omega

/-- Every chunk is non-empty and no longer than the chunk size. -/
theorem splitIntoChunks_mem (n : Nat) :
    ∀ l : List Nat, ∀ c ∈ BinaryParser.splitIntoChunks l (n + 1),
      c ≠ [] ∧ c.length ≤ n + 1
  | [] => by simp [splitIntoChunks_nil]
  | a :: as => by
    rw [splitIntoChunks_cons _ _ (by simp)]
    intro c hc
    rcases List.mem_cons.1 hc with rfl | hc
    · refine ⟨by simp, ?_⟩
      simp only [List.length_take]
      omega
    · exact splitIntoChunks_mem n ((a :: as).drop (n + 1)) c hc
  termination_by l => l.length
  decreasing_by simp; omega

/-- Claim C2, counterexample: a 10-byte standard-layout inventory range
is shorter than the 16-byte chunk width, so under the claim it would be
discarded and yield no identifier; the decoder instead keeps the partial
chunk and derives the identifier "DEADBEEF" from it. -/
theorem c2_counterexample :
    [0xEF, 0xBE, 0xAD, 0xDE, 0, 0, 0, 0, 0, 0].length < 16
    ∧ BinaryParser.splitIntoChunks [0xEF, 0xBE, 0xAD, 0xDE, 0, 0, 0, 0, 0, 0] 16
        = [[0xEF, 0xBE, 0xAD, 0xDE, 0, 0, 0, 0, 0, 0]]
    ∧ BinaryParser.decodeIds [0xEF, 0xBE, 0xAD, 0xDE, 0, 0, 0, 0, 0, 0] false
        = ["DEADBEEF"] := by
  refine ⟨by decide, by decide, by decide⟩

/-- Claim C2, amended: for every byte range and every layout the decoder
splits the range into fixed-width chunks (16 bytes for the standard
layout, 8 for the expansion layout) in order — the chunks concatenate
back to the range and each has at most the chunk width — but a final
partial chunk shorter than the chunk width is kept, not discarded: every
chunk, partial or not, is mapped to an identifier, so the identifier
count is the range length divided by the chunk width rounded up. -/
theorem c2_amended (inventory : List Nat) (isDlc : Bool) :
    ((BinaryParser.splitIntoChunks inventory (if isDlc then 8 else 16)).flatten = inventory)
    ∧ (∀ c ∈ BinaryParser.splitIntoChunks inventory (if isDlc then 8 else 16),
        c ≠ [] ∧ c.length ≤ (if isDlc then 8 else 16))
    ∧ (BinaryParser.decodeIds inventory isDlc).length
        = (inventory.length + (if isDlc then 8 else 16) - 1) / (if isDlc then 8 else 16) := by
  cases isDlc
  · refine ⟨splitIntoChunks_flatten 15 inventory, splitIntoChunks_mem 15 inventory, ?_⟩
    simp only [BinaryParser.decodeIds, List.length_map, Bool.false_eq_true, if_false]
    rw [show (16 : Nat) = 15 + 1 from rfl, splitIntoChunks_length 15 inventory]
    omega
  · refine ⟨splitIntoChunks_flatten 7 inventory, splitIntoChunks_mem 7 inventory, ?_⟩
    simp only [BinaryParser.decodeIds, List.length_map, if_true]
    rw [show (8 : Nat) = 7 + 1 from rfl, splitIntoChunks_length 7 inventory]
    omega

/-- Claim C2, amended, witness: the amended theorem applied to the
concrete 10-byte range of the counterexample, standard layout. -/
theorem c2_amended_witness :
    (BinaryParser.splitIntoChunks [0xEF, 0xBE, 0xAD, 0xDE, 0, 0, 0, 0, 0, 0] 16).flatten
      = [0xEF, 0xBE, 0xAD, 0xDE, 0, 0, 0, 0, 0, 0]
    ∧ ([0xEF, 0xBE, 0xAD, 0xDE, 0, 0, 0, 0, 0, 0] ≠ ([] : List Nat)
        ∧ [0xEF, 0xBE, 0xAD, 0xDE, 0, 0, 0, 0, 0, 0].length ≤ 16)
    ∧ (BinaryParser.decodeIds [0xEF, 0xBE, 0xAD, 0xDE, 0, 0, 0, 0, 0, 0] false).length = 1 := by
  have h := c2_amended [0xEF, 0xBE, 0xAD, 0xDE, 0, 0, 0, 0, 0, 0] false
  refine ⟨h.1, h.2.1 _ (by decide), ?_⟩
  rw [h.2.2]
  decide

/-- Claim C5: for every byte buffer whose first 4 bytes are not
`42 4E 44 34` ("BND4") and every slot index, both `parseInventory` and
`getSlotNames` return the failure result carrying the signature error
message.  In this pure model the result value is the same for every such
buffer and slot, which is the statable form of "no further decoding
occurs": nothing past the signature check influences the outcome. -/
theorem c5_signature_gate (fileData : List Nat) (slotIndex : Int)
    (h : fileData.take 4 ≠ BinaryParser.FILE_SIGNATURE) :
    BinaryParser.parseInventory fileData slotIndex
        = BinaryParser.ParseResult.err "Invalid save file format"
    ∧ BinaryParser.getSlotNames fileData
        = BinaryParser.NamesResult.err "Invalid save file format" := by
  have hv : BinaryParser.validateFile fileData = false := by
    simp only [BinaryParser.validateFile]
    exact beq_eq_false_iff_ne.2 h
  constructor
  · simp [BinaryParser.parseInventory, hv]
  · simp [BinaryParser.getSlotNames, hv]

/-- Claim C5, witness: a 4-byte buffer of zeros fails validation and
both entry points return the signature failure value. -/
theorem c5_signature_gate_witness :
    ([0, 0, 0, 0] : List Nat).take 4 ≠ BinaryParser.FILE_SIGNATURE
    ∧ BinaryParser.parseInventory [0, 0, 0, 0] 0
        = BinaryParser.ParseResult.err "Invalid save file format"
    ∧ BinaryParser.getSlotNames [0, 0, 0, 0]
        = BinaryParser.NamesResult.err "Invalid save file format" := by
  refine ⟨by decide, ?_, ?_⟩
  · exact (c5_signature_gate [0, 0, 0, 0] 0 (by decide)).1
  · exact (c5_signature_gate [0, 0, 0, 0] 0 (by decide)).2

/-- Claim C10: for every file that passes the `BND4` signature check and
every slot index outside 0–9, `parseInventory` returns a failure result
(an `err` value with a message) rather than a success value: the
`TypeError` thrown by `getInventory(undefined)` — or, on files whose
clamped name window has odd length, the earlier `RangeError` — is caught
by the `try`/`catch` and converted to the failure value. -/
theorem c10_bad_slot_fails (fileData : List Nat) (slotIndex : Int)
    (hv : BinaryParser.validateFile fileData = true)
    (h : slotIndex < 0 ∨ 9 < slotIndex) :
    ∃ msg, BinaryParser.parseInventory fileData slotIndex
        = BinaryParser.ParseResult.err msg := by
  unfold BinaryParser.parseInventory
  rw [hv]
  simp only [Bool.not_true, Bool.false_eq_true, if_false]
  cases hn : BinaryParser.getCharacterNames fileData with
  | error e => exact ⟨e, rfl⟩
  | ok names =>
    have hlen : (BinaryParser.getSlots fileData).length = 10 := by
      simp [BinaryParser.getSlots, BinaryParser.slotRanges]
    have hnone : BinaryParser.jsIndex (BinaryParser.getSlots fileData) slotIndex = none := by
      unfold BinaryParser.jsIndex
      rcases h with h | h
      · rw [if_pos h]
      · rw [if_neg (by omega)]
        apply List.get?_eq_none.2
        rw [hlen]
        omega
    rw [hnone]
    exact ⟨_, rfl⟩

/-- Claim C10, witness: the minimal valid file (just the signature) with
slot index 10 produces a failure result. -/
theorem c10_bad_slot_fails_witness :
    BinaryParser.validateFile [66, 78, 68, 52] = true
    ∧ ((10 : Int) < 0 ∨ (9 : Int) < 10)
    ∧ ∃ msg, BinaryParser.parseInventory [66, 78, 68, 52] 10
        = BinaryParser.ParseResult.err msg :=
  ⟨by decide, by norm_num, c10_bad_slot_fails [66, 78, 68, 52] 10 (by decide) (by norm_num)⟩

/-- Claim C6: inventory location scans for the 8-byte standard marker
first; a hit at offset `m` starts the range at `m + 8 + 8` with the
standard layout (`isDlc = false`).  Only when the standard marker is
absent is the 5-byte expansion marker — a byte-prefix of the standard
one — scanned; a hit at `m` starts the range at `m + 5 + 3` with the
expansion layout.  When neither marker occurs the result is `none`
(NotFound), the value `parseInventory` turns into the per-slot "Could
not find inventory data in slot" report, not a structural error. -/
theorem c6_locator_priority (slot : List Nat) :
    BinaryParser.PATTERN_DLC = BinaryParser.PATTERN_NORMAL.take 5
    ∧ (∀ m, BinaryParser.findPattern slot BinaryParser.PATTERN_NORMAL = some m →
        BinaryParser.getInventory slot
          = BinaryParser.endScan slot (m + BinaryParser.PATTERN_NORMAL.length + 8) false)
    ∧ (BinaryParser.findPattern slot BinaryParser.PATTERN_NORMAL = none →
        ∀ m, BinaryParser.findPattern slot BinaryParser.PATTERN_DLC = some m →
          BinaryParser.getInventory slot
            = BinaryParser.endScan slot (m + BinaryParser.PATTERN_DLC.length + 3) true)
    ∧ (BinaryParser.findPattern slot BinaryParser.PATTERN_NORMAL = none →
        BinaryParser.findPattern slot BinaryParser.PATTERN_DLC = none →
          BinaryParser.getInventory slot = none) := by
  refine ⟨by decide, ?_, ?_, ?_⟩
  · intro m hm
    unfold BinaryParser.getInventory
    rw [hm]
    rfl
  · intro hn m hm
    unfold BinaryParser.getInventory
    rw [hn, hm]
    rfl
  · intro hn hd
    unfold BinaryParser.getInventory
    rw [hn, hd]

/-- Claim C6, witness: a slot that is the standard marker followed by 58
zero bytes locates the inventory at offset 16 with the standard layout
(and the expansion branch is not taken even though the expansion marker,
being a prefix, also occurs). -/
theorem c6_locator_priority_witness :
    BinaryParser.getInventory (BinaryParser.PATTERN_NORMAL ++ List.replicate 58 0)
      = BinaryParser.endScan (BinaryParser.PATTERN_NORMAL ++ List.replicate 58 0)
          (0 + BinaryParser.PATTERN_NORMAL.length + 8) false := by
  exact (c6_locator_priority _).2.1 0 (by decide)

/-- A value below 16 renders as a single hex digit regardless of fuel. -/
theorem natToHexAux_small (f n : Nat) (h : n < 16) :
    BinaryParser.natToHexAux f n = [BinaryParser.hexDigit n] := by
  cases f with
  | zero => rfl
  | succ f => simp [BinaryParser.natToHexAux, h]

/-- A byte renders as exactly its two hex digits after padding. -/
theorem decimalToHex_byte (b : Nat) (h : b < 256) :
    BinaryParser.decimalToHex b 2
      = [BinaryParser.hexDigit (b / 16), BinaryParser.hexDigit (b % 16)] := by
  rcases Nat.lt_or_ge b 16 with hb | hb
  · have h1 : BinaryParser.natToHex b = [BinaryParser.hexDigit b] :=
      natToHexAux_small b b hb
    have h2 : b / 16 = 0 := Nat.div_eq_of_lt hb
    have h3 : b % 16 = b := Nat.mod_eq_of_lt hb
    rw [BinaryParser.decimalToHex, h1, h2, h3]
    rfl
  · have hf : ∃ f, b = f + 1 := ⟨b - 1, by omega⟩
    obtain ⟨f, rfl⟩ := hf
    have h1 : BinaryParser.natToHex (f + 1)
        = [BinaryParser.hexDigit ((f + 1) / 16), BinaryParser.hexDigit ((f + 1) % 16)] := by
      unfold BinaryParser.natToHex
      rw [BinaryParser.natToHexAux, if_neg (by omega)]
      rw [natToHexAux_small f ((f + 1) / 16) (by omega)]
      rfl
    rw [BinaryParser.decimalToHex, h1]
    rfl

/-- Upper-cased hex digits of a value below 16 decode back to it and lie
in the upper-case hex alphabet. -/
theorem hexDigit_roundtrip :
    ∀ d < 16, TrackerCore.hexVal (Char.toUpper (BinaryParser.hexDigit d)) = some d
      ∧ Char.toUpper (BinaryParser.hexDigit d) ∈ ("0123456789ABCDEF").data := by
  decide

/-- Claim C9: identifier derivation round-trips on byte order.  For every
4-byte sequence, `convertIdToHex` (reverse, hex-encode each byte as two
digits, upper-case) yields an 8-character string over the upper-case hex
alphabet, and decoding that string back to bytes and reversing again
reproduces the original 4 bytes. -/
theorem c9_id_roundtrip (b0 b1 b2 b3 : Nat)
    (h0 : b0 < 256) (h1 : b1 < 256) (h2 : b2 < 256) (h3 : b3 < 256) :
    (BinaryParser.convertIdToHex [b0, b1, b2, b3]).length = 8
    ∧ (∀ c ∈ (BinaryParser.convertIdToHex [b0, b1, b2, b3]).data,
        c ∈ ("0123456789ABCDEF").data)
    ∧ (hexPairsToBytes (BinaryParser.convertIdToHex [b0, b1, b2, b3]).data).reverse
        = [b0, b1, b2, b3] := by
  have hdata : (BinaryParser.convertIdToHex [b0, b1, b2, b3]).data
      = (BinaryParser.decimalToHex b3 2 ++ BinaryParser.decimalToHex b2 2
          ++ BinaryParser.decimalToHex b1 2 ++ BinaryParser.decimalToHex b0 2).map
            Char.toUpper := by
    simp [BinaryParser.convertIdToHex, List.range_succ]
  have hbyte : ∀ b : Nat, b < 256 →
      (BinaryParser.decimalToHex b 2).map Char.toUpper
        = [Char.toUpper (BinaryParser.hexDigit (b / 16)),
           Char.toUpper (BinaryParser.hexDigit (b % 16))] := by
    intro b hb
    rw [decimalToHex_byte b hb]
    rfl
  have hdata2 : (BinaryParser.convertIdToHex [b0, b1, b2, b3]).data
      = [Char.toUpper (BinaryParser.hexDigit (b3 / 16)), Char.toUpper (BinaryParser.hexDigit (b3 % 16)),
         Char.toUpper (BinaryParser.hexDigit (b2 / 16)), Char.toUpper (BinaryParser.hexDigit (b2 % 16)),
         Char.toUpper (BinaryParser.hexDigit (b1 / 16)), Char.toUpper (BinaryParser.hexDigit (b1 % 16)),
         Char.toUpper (BinaryParser.hexDigit (b0 / 16)), Char.toUpper (BinaryParser.hexDigit (b0 % 16))] := by
    rw [hdata]
    simp only [List.map_append, hbyte b3 h3, hbyte b2 h2, hbyte b1 h1, hbyte b0 h0]
    rfl
  have hdec : ∀ b : Nat, b < 256 →
      16 * ((TrackerCore.hexVal (Char.toUpper (BinaryParser.hexDigit (b / 16)))).getD 0)
        + (TrackerCore.hexVal (Char.toUpper (BinaryParser.hexDigit (b % 16)))).getD 0 = b := by
    intro b hb
    rw [(hexDigit_roundtrip (b / 16) (by omega)).1, (hexDigit_roundtrip (b % 16) (by omega)).1]
    simp only [Option.getD_some]
    omega
  refine ⟨?_, ?_, ?_⟩
  · rw [String.length, hdata2]
    rfl
  · intro c hc
    rw [hdata2] at hc
    simp only [List.mem_cons, List.not_mem_nil, or_false] at hc
    rcases hc with rfl | rfl | rfl | rfl | rfl | rfl | rfl | rfl
    · exact (hexDigit_roundtrip (b3 / 16) (by omega)).2
    · exact (hexDigit_roundtrip (b3 % 16) (by omega)).2
    · exact (hexDigit_roundtrip (b2 / 16) (by omega)).2
    · exact (hexDigit_roundtrip (b2 % 16) (by omega)).2
    · exact (hexDigit_roundtrip (b1 / 16) (by omega)).2
    · exact (hexDigit_roundtrip (b1 % 16) (by omega)).2
    · exact (hexDigit_roundtrip (b0 / 16) (by omega)).2
    · exact (hexDigit_roundtrip (b0 % 16) (by omega)).2
  · rw [hdata2]
    simp only [hexPairsToBytes]
    rw [hdec b3 h3, hdec b2 h2, hdec b1 h1, hdec b0 h0]
    rfl

/-- Claim C9, witness: the round-trip at the concrete identifier bytes
`EF BE AD DE`, whose rendering is "DEADBEEF". -/
theorem c9_id_roundtrip_witness :
    (BinaryParser.convertIdToHex [0xEF, 0xBE, 0xAD, 0xDE]).length = 8
    ∧ (hexPairsToBytes (BinaryParser.convertIdToHex [0xEF, 0xBE, 0xAD, 0xDE]).data).reverse
        = [0xEF, 0xBE, 0xAD, 0xDE]
    ∧ BinaryParser.convertIdToHex [0xEF, 0xBE, 0xAD, 0xDE] = "DEADBEEF" := by
  have h := c9_id_roundtrip 0xEF 0xBE 0xAD 0xDE (by decide) (by decide) (by decide) (by decide)
  exact ⟨h.1, h.2.2, by decide⟩

/-- Claim C8: with all other criteria absent, filtering with
`status = "owned"` and with `status = "missing"` partitions the enriched
list exactly: the two results are the complementary `filter`s of the
ownership flag, each is an order-preserving subsequence (`Sublist`) of
the input, their concatenation is a permutation of the input, and every
item occurs in the two results jointly exactly as often as in the input
— so interleaving the two subsequences by original position reconstructs
the input list. -/
theorem c8_status_partition (items : List TrackerCore.EnrichedItem) :
    TrackerCore.filterItems { status := some "owned" } items
        = items.filter (fun it => it.owned)
    ∧ TrackerCore.filterItems { status := some "missing" } items
        = items.filter (fun it => !it.owned)
    ∧ (TrackerCore.filterItems { status := some "owned" } items).Sublist items
    ∧ (TrackerCore.filterItems { status := some "missing" } items).Sublist items
    ∧ (TrackerCore.filterItems { status := some "owned" } items
        ++ TrackerCore.filterItems { status := some "missing" } items).Perm items
    ∧ ∀ it : TrackerCore.EnrichedItem,
        (TrackerCore.filterItems { status := some "owned" } items).count it
          + (TrackerCore.filterItems { status := some "missing" } items).count it
          = items.count it := by
  have how : TrackerCore.filterItems { status := some "owned" } items
      = items.filter (fun it => it.owned) := by
    simp [TrackerCore.filterItems, TrackerCore.truthy]
  have hms : TrackerCore.filterItems { status := some "missing" } items
      = items.filter (fun it => !it.owned) := by
    simp [TrackerCore.filterItems, TrackerCore.truthy]
  have hperm : (TrackerCore.filterItems { status := some "owned" } items
      ++ TrackerCore.filterItems { status := some "missing" } items).Perm items := by
    rw [how, hms]
    exact List.filter_append_perm _ items
  refine ⟨how, hms, ?_, ?_, hperm, ?_⟩
  · rw [how]; exact List.filter_sublist items
  · rw [hms]; exact List.filter_sublist items
  · intro it
    have := hperm.count_eq it
    rw [List.count_append] at this
    exact this

/-- Specification of the normalization search `shiftFor`: with enough
fuel it returns the least `k` with `b ≤ a * 2^k`. -/
theorem shiftFor_spec : ∀ (fuel a b : Nat), 0 < a → b ≤ a * 2 ^ fuel →
    b ≤ a * 2 ^ TrackerCore.shiftFor fuel a b
      ∧ ∀ j < TrackerCore.shiftFor fuel a b, a * 2 ^ j < b := by
  intro fuel
  induction fuel with
  | zero =>
    intro a b _ hb
    refine ⟨by simpa [TrackerCore.shiftFor] using hb, ?_⟩
    intro j hj
    simp [TrackerCore.shiftFor] at hj
  | succ fuel ih =>
    intro a b ha hb
    by_cases hba : b ≤ a
    · refine ⟨by simp [TrackerCore.shiftFor, hba], ?_⟩
      intro j hj
      simp [TrackerCore.shiftFor, hba] at hj
    · have hb2 : b ≤ 2 * a * 2 ^ fuel := by
        calc b ≤ a * 2 ^ (fuel + 1) := hb
          _ = 2 * a * 2 ^ fuel := by ring
      obtain ⟨h1, h2⟩ := ih (2 * a) b (by omega) hb2
      have hval : TrackerCore.shiftFor (fuel + 1) a b
          = TrackerCore.shiftFor fuel (2 * a) b + 1 := by
        simp [TrackerCore.shiftFor, hba]
      refine ⟨?_, ?_⟩
      · rw [hval]
        calc b ≤ 2 * a * 2 ^ TrackerCore.shiftFor fuel (2 * a) b := h1
          _ = a * 2 ^ (TrackerCore.shiftFor fuel (2 * a) b + 1) := by ring
      · intro j hj
        rw [hval] at hj
        cases j with
        | zero => simpa using Nat.lt_of_not_le hba
        | succ j =>
          have := h2 j (by omega)
          calc a * 2 ^ (j + 1) = 2 * a * 2 ^ j := by ring
            _ < b := this

/-- Rounding to nearest with ties to even is within half a unit of the
exact quotient. -/
theorem roundTE_err (num den : Nat) (hden : 0 < den) :
    |(TrackerCore.roundTE num den : ℚ) - (num : ℚ) / (den : ℚ)| ≤ 1 / 2 := by
  have hdQ : (0 : ℚ) < (den : ℚ) := by exact_mod_cast hden
  have hdQ' : ((den : ℚ)) ≠ 0 := ne_of_gt hdQ
  have hmod : num % den < den := Nat.mod_lt _ hden
  have h0 : (den : ℚ) * ((num / den : ℕ) : ℚ) + ((num % den : ℕ) : ℚ) = (num : ℚ) := by
    exact_mod_cast congrArg (Nat.cast : ℕ → ℚ) (Nat.div_add_mod num den)
  have hval : (num : ℚ) / den = ((num / den : ℕ) : ℚ) + ((num % den : ℕ) : ℚ) / den := by
    field_simp
    linarith [h0]
  have hfr_lt : ((num % den : ℕ) : ℚ) / den < 1 := by
    rw [div_lt_one hdQ]
    exact_mod_cast hmod
  have hfr_nonneg : (0 : ℚ) ≤ ((num % den : ℕ) : ℚ) / den := by positivity
  unfold TrackerCore.roundTE
  split_ifs with h1 h2 h3
  · have hlow : (1 : ℚ) / 2 < ((num % den : ℕ) : ℚ) / den := by
      rw [div_lt_div_iff (by norm_num) hdQ]
      exact_mod_cast by omega
    rw [hval]
    push_cast
    rw [abs_le]
    constructor <;> nlinarith [hfr_lt, hlow]
  · have hhigh : ((num % den : ℕ) : ℚ) / den < 1 / 2 := by
      rw [div_lt_div_iff hdQ (by norm_num)]
      exact_mod_cast by omega
    rw [hval]
    rw [abs_le]
    constructor <;> nlinarith [hfr_nonneg, hhigh]
  · have htie : ((num % den : ℕ) : ℚ) / den = 1 / 2 := by
      rw [div_eq_div_iff hdQ' (by norm_num)]
      exact_mod_cast by omega
    rw [hval, htie]
    rw [abs_le]
    constructor <;> nlinarith
  · have htie : ((num % den : ℕ) : ℚ) / den = 1 / 2 := by
      rw [div_eq_div_iff hdQ' (by norm_num)]
      exact_mod_cast by omega
    rw [hval, htie]
    push_cast
    rw [abs_le]
    constructor <;> nlinarith

/-- Natural-number division is the rational floor of the quotient. -/
theorem natCast_div_ratFloor (a b : ℕ) (_hb : 0 < b) :
    ((a / b : ℕ) : ℤ) = ⌊(a : ℚ) / (b : ℚ)⌋ := by
  rw [← Int.natCast_floor_eq_floor (by positivity)]
  rw [Nat.floor_div_nat (a : ℚ) b, Nat.floor_natCast]

/-- Floors of rationals at most one apart are at most one apart. -/
theorem abs_floor_sub (x y : ℚ) (h : |x - y| ≤ 1) : |⌊x⌋ - ⌊y⌋| ≤ 1 := by
  rw [abs_le] at h ⊢
  have h1 : y - 1 ≤ x := by linarith [h.1, h.2]
  have h2 : x ≤ y + 1 := by linarith [h.1, h.2]
  have f1 : ⌊y⌋ - 1 ≤ ⌊x⌋ := by
    have : ⌊y - (1 : ℤ)⌋ ≤ ⌊x⌋ := Int.floor_le_floor (by push_cast; linarith)
    rwa [Int.floor_sub_int] at this
  have f2 : ⌊x⌋ ≤ ⌊y⌋ + 1 := by
    have : ⌊x⌋ ≤ ⌊y + (1 : ℤ)⌋ := Int.floor_le_floor (by push_cast; linarith)
    rwa [Int.floor_add_int] at this
  omega

/-- Zero owned items give a zero percentage for every total. -/
theorem roundPct_zero (t : Nat) : TrackerCore.roundPct 0 t = 0 := by
  simp [TrackerCore.roundPct]

/-- The double-precision percentage is within one of the exact rational
half-up rounding of `owned / total × 100`: the two rounding errors of
the division and the multiplication total less than `2^-45`, which can
move the final `Math.round` by at most one step. -/
theorem roundPct_near_round (o t : ℕ) (ho : o ≤ t) (ht : 0 < t) :
    |((TrackerCore.roundPct o t : ℕ) : ℤ) - round ((o : ℚ) / (t : ℚ) * 100)| ≤ 1 := by
  rcases Nat.eq_zero_or_pos o with rfl | hopos
  · rw [roundPct_zero]
    simp
  have htQ : (0 : ℚ) < (t : ℚ) := by exact_mod_cast ht
  set k := TrackerCore.divShift o t with hkdef
  set m1 := TrackerCore.divSig o t with hm1def
  set d := TrackerCore.mulShift o t with hddef
  set m2 := TrackerCore.mulSig o t with hm2def
  set D := TrackerCore.pctExp o t with hDdef
  have hpct : TrackerCore.roundPct o t = (2 * m2 + 2 ^ D) / 2 ^ (D + 1) := by
    unfold TrackerCore.roundPct
    rw [if_pos ht, if_neg (by omega)]
  have hfuel : t ≤ o * 2 ^ t := by
    calc t ≤ 2 ^ t := le_of_lt (Nat.lt_two_pow t)
      _ ≤ o * 2 ^ t := Nat.le_mul_of_pos_left _ hopos
  obtain ⟨hk1, _⟩ := shiftFor_spec t o t hopos hfuel
  have hdval : d = 6 ∨ d = 7 := by
    rw [hddef]
    unfold TrackerCore.mulShift
    split_ifs <;> simp
  have hDd : D + d = 52 + k := by
    rw [hDdef, hkdef, hddef]
    unfold TrackerCore.pctExp
    omega
  have hD45 : 45 ≤ D := by omega
  have e1 : |(m1 : ℚ) - ((o * 2 ^ (52 + k) : ℕ) : ℚ) / t| ≤ 1 / 2 := by
    rw [hm1def]
    unfold TrackerCore.divSig
    rw [← hkdef]
    exact roundTE_err _ t ht
  have hnum1 : ((o * 2 ^ (52 + k) : ℕ) : ℚ) / t = (o : ℚ) / t * 2 ^ (52 + k) := by
    push_cast
    ring
  set q : ℚ := (o : ℚ) / t with hqdef
  have hP : (0 : ℚ) < 2 ^ (52 + k) := by positivity
  have hv1 : |(m1 : ℚ) / 2 ^ (52 + k) - q| ≤ 1 / 2 / 2 ^ (52 + k) := by
    have hrw : (m1 : ℚ) / 2 ^ (52 + k) - q = ((m1 : ℚ) - q * 2 ^ (52 + k)) / 2 ^ (52 + k) := by
      field_simp
      ring
    rw [hrw, abs_div, abs_of_pos hP]
    gcongr
    rw [← hnum1]
    exact e1
  have hdpos : (0 : ℚ) < 2 ^ d := by positivity
  have hQD : (0 : ℚ) < 2 ^ D := by positivity
  have hm2eq : m2 = TrackerCore.roundTE (m1 * 100) (2 ^ d) := rfl
  have e2 : |(m2 : ℚ) - (m1 : ℚ) * 100 / 2 ^ d| ≤ 1 / 2 := by
    have h := roundTE_err (m1 * 100) (2 ^ d) (by positivity)
    rw [← hm2eq] at h
    push_cast at h
    exact h
  have hpow : (2 : ℚ) ^ (52 + k) = 2 ^ D * 2 ^ d := by
    rw [← pow_add, hDd]
  have hv2 : |(m2 : ℚ) / 2 ^ D - (m1 : ℚ) * 100 / 2 ^ (52 + k)| ≤ 1 / 2 / 2 ^ D := by
    have hrw2 : (m2 : ℚ) / 2 ^ D - (m1 : ℚ) * 100 / 2 ^ (52 + k)
        = ((m2 : ℚ) - (m1 : ℚ) * 100 / 2 ^ d) / 2 ^ D := by
      rw [hpow]
      field_simp
      ring
    rw [hrw2, abs_div, abs_of_pos hQD]
    gcongr
  have hcomb : |(m2 : ℚ) / 2 ^ D - q * 100| ≤ 1 / 2 / 2 ^ D + 100 * (1 / 2 / 2 ^ (52 + k)) := by
    have tri := abs_sub_le ((m2 : ℚ) / 2 ^ D) ((m1 : ℚ) * 100 / 2 ^ (52 + k)) (q * 100)
    have h2nd : |(m1 : ℚ) * 100 / 2 ^ (52 + k) - q * 100|
        = 100 * |(m1 : ℚ) / 2 ^ (52 + k) - q| := by
      rw [show (m1 : ℚ) * 100 / 2 ^ (52 + k) - q * 100
          = 100 * ((m1 : ℚ) / 2 ^ (52 + k) - q) by ring]
      rw [abs_mul, abs_of_pos (by norm_num : (0 : ℚ) < 100)]
    have h2nd_le : |(m1 : ℚ) * 100 / 2 ^ (52 + k) - q * 100|
        ≤ 100 * (1 / 2 / 2 ^ (52 + k)) := by
      rw [h2nd]
      have := mul_le_mul_of_nonneg_left hv1 (by norm_num : (0 : ℚ) ≤ 100)
      linarith
    linarith [hv2]
  have hsmall : 1 / 2 / (2 : ℚ) ^ D + 100 * (1 / 2 / 2 ^ (52 + k)) ≤ 1 / 2 := by
    have hDb : (2 : ℚ) ^ 45 ≤ 2 ^ D := pow_le_pow_right (by norm_num) hD45
    have hkb : (2 : ℚ) ^ 52 ≤ 2 ^ (52 + k) := pow_le_pow_right (by norm_num) (by omega)
    have h1 : 1 / 2 / (2 : ℚ) ^ D ≤ 1 / 2 / 2 ^ 45 := by
      gcongr
    have h2 : 100 * (1 / 2 / (2 : ℚ) ^ (52 + k)) ≤ 100 * (1 / 2 / 2 ^ 52) := by
      gcongr
    have h3 : 1 / 2 / (2 : ℚ) ^ 45 + 100 * (1 / 2 / 2 ^ 52) ≤ 1 / 2 := by norm_num
    linarith
  have hvalZ : ((TrackerCore.roundPct o t : ℕ) : ℤ) = ⌊(m2 : ℚ) / 2 ^ D + 1 / 2⌋ := by
    rw [hpct, natCast_div_ratFloor _ _ (by positivity)]
    congr 1
    push_cast
    field_simp
    ring
  rw [hvalZ, round_eq]
  apply abs_floor_sub
  rw [show (m2 : ℚ) / 2 ^ D + 1 / 2 - (q * 100 + 1 / 2) = (m2 : ℚ) / 2 ^ D - q * 100 by ring]
  linarith [hcomb, hsmall]

/-- Claim C7, counterexample: with 29 owned items out of 200, the exact
value of `owned / total × 100` is 14.5, whose half-up rounding is 15 —
but the program computes in binary64 doubles, where `29 / 200` rounds
to slightly below `0.145` and the product to `14.4999999999999982...`,
so `Math.round` yields 14: the claim's clause
`percentage = round(owned / total × 100)` fails at this input. -/
theorem c7_counterexample :
    (TrackerCore.calculateStats items29of200).total = 200
    ∧ (TrackerCore.calculateStats items29of200).owned = 29
    ∧ (TrackerCore.calculateStats items29of200).percentage = 14
    ∧ round ((29 : ℚ) / 200 * 100) = 15 := by
  refine ⟨?_, ?_, ?_, ?_⟩
  · set_option maxRecDepth 400000 in decide
  · set_option maxRecDepth 400000 in decide
  · set_option maxRecDepth 400000 in decide
  · have h15 : (29 : ℚ) / 200 * 100 + 1 / 2 = ((15 : ℤ) : ℚ) := by norm_num
    rw [round_eq, h15, Int.floor_intCast]

/-- Claim C7, amended: cross-referencing an empty decoded-identifier
list against a non-empty catalog yields exactly one enriched item per
(region, subregion, identifier) triple, in catalog order, each with
ownership false, and the resulting statistics snapshot has percentage 0.
In general the percentage is `Math.round` of the double-precision
evaluation of `owned / total × 100` — always within one of the exact
rational rounding `round(owned / total × 100)`, from which it can differ
at double-rounding boundaries such as 29/200 — and is 0 by definition
when the total is 0, so the division is always guarded. -/
theorem c7_empty_inventory (locationData : TrackerCore.Catalog)
    (_hne : locationData ≠ []) :
    TrackerCore.crossReference [] locationData
        = (catalogTriples locationData).map enrichUnowned
    ∧ (∀ it ∈ TrackerCore.crossReference [] locationData, it.owned = false)
    ∧ (TrackerCore.calculateStats (TrackerCore.crossReference [] locationData)).percentage = 0
    ∧ (∀ enriched : List TrackerCore.EnrichedItem,
        ((TrackerCore.calculateStats enriched).total = 0 →
          (TrackerCore.calculateStats enriched).percentage = 0)
        ∧ (0 < (TrackerCore.calculateStats enriched).total →
            |(((TrackerCore.calculateStats enriched).percentage : ℕ) : ℤ)
              - round (((TrackerCore.calculateStats enriched).owned : ℚ)
                  / ((TrackerCore.calculateStats enriched).total : ℚ) * 100)| ≤ 1)) := by
  have hmap : TrackerCore.crossReference [] locationData
      = (catalogTriples locationData).map enrichUnowned := by
    simp only [TrackerCore.crossReference, catalogTriples, enrichUnowned,
      List.map_flatMap, List.map_map]
    rfl
  have hall : ∀ it ∈ TrackerCore.crossReference [] locationData, it.owned = false := by
    intro it hit
    rw [hmap] at hit
    obtain ⟨t, _, rfl⟩ := List.mem_map.1 hit
    rfl
  refine ⟨hmap, hall, ?_, ?_⟩
  · have hfilter : (TrackerCore.crossReference [] locationData).filter
        (fun it => it.owned) = [] := by
      rw [List.filter_eq_nil_iff]
      intro it hit
      simp [hall it hit]
    simp only [TrackerCore.calculateStats, hfilter, List.length_nil]
    exact roundPct_zero _
  · intro enriched
    constructor
    · intro h0
      simp only [TrackerCore.calculateStats] at h0 ⊢
      rw [List.length_eq_zero.1 h0]
      simp only [List.filter_nil, List.length_nil]
      exact roundPct_zero _
    · intro hpos
      simp only [TrackerCore.calculateStats] at hpos ⊢
      exact roundPct_near_round _ _ (List.length_filter_le _ _) hpos

/-- Claim C7, amended, witness: the spec's one-entry concrete catalog
with an empty decoded list — one enriched item, unowned, percentage 0. -/
theorem c7_empty_inventory_witness :
    TrackerCore.crossReference []
        [("RegionA", [("SubA", [("DEADBEEF",
          { name := "Test Sword", type := none, hint := none, multiple := none })])])]
      = (catalogTriples
          [("RegionA", [("SubA", [("DEADBEEF",
            { name := "Test Sword", type := none, hint := none, multiple := none })])])]).map
          enrichUnowned
    ∧ (TrackerCore.calculateStats (TrackerCore.crossReference []
        [("RegionA", [("SubA", [("DEADBEEF",
          { name := "Test Sword", type := none, hint := none, multiple := none })])])])).percentage
      = 0 := by
  have h := c7_empty_inventory
    [("RegionA", [("SubA", [("DEADBEEF",
      { name := "Test Sword", type := none, hint := none, multiple := none })])])]
    (by simp)
  exact ⟨h.1, h.2.2.1⟩

/-- Claim C4, counterexample: `fileShort` is an 866-byte file, far
shorter than the last slot's end offset `0x190039f + 1`, yet slot
extraction does not raise any error — `subarray` clamps the slot windows
to the available bytes — and `parseInventory` on slot 0 proceeds on the
truncated ranges all the way to a success result with one decoded
identifier. -/
theorem c4_counterexample :
    fileShort.length < 0x190039f + 1
    ∧ BinaryParser.parseInventory fileShort 0
        = BinaryParser.ParseResult.ok ["DEADBEEF"] false [] 1 := by
  set_option maxRecDepth 100000 in exact ⟨by decide, by decide⟩

/-- Claim C4, amended: for every input file — in particular one shorter
than the last slot's end offset — slot extraction never fails: it always
returns exactly ten ranges, each clamped to the bytes actually present
(so never longer than the nominal `0x280000`-byte slot window), and
decoding simply proceeds on the truncated ranges (see the accompanying
counterexample, where it even succeeds). -/
theorem c4_slots_clamp (fileData : List Nat) :
    (BinaryParser.getSlots fileData).length = 10
    ∧ ∀ s ∈ BinaryParser.getSlots fileData, s.length ≤ 0x280000 := by
  constructor
  · simp [BinaryParser.getSlots, BinaryParser.slotRanges]
  · intro s hs
    obtain ⟨r, hr, rfl⟩ := List.mem_map.1 hs
    have hw : r.2 + 1 - r.1 = 0x280000 := by
      simp only [BinaryParser.slotRanges, List.mem_cons, List.not_mem_nil, or_false] at hr
      rcases hr with rfl | rfl | rfl | rfl | rfl | rfl | rfl | rfl | rfl | rfl <;> rfl
    calc ((fileData.drop r.1).take (r.2 + 1 - r.1)).length
        ≤ r.2 + 1 - r.1 := List.length_take_le _ _
      _ = 0x280000 := hw

/-- Claim C4, amended, witness: the empty file still yields ten (empty)
slot ranges, each within the nominal window size. -/
theorem c4_slots_clamp_witness :
    (BinaryParser.getSlots []).length = 10
    ∧ ((BinaryParser.getSlots []).headD [0]).length ≤ 0x280000 := by
  refine ⟨(c4_slots_clamp []).1, ?_⟩
  exact (c4_slots_clamp []).2 _ (by decide)

/-- Shifting the running index of the pattern-scan loop shifts the
result. -/
theorem findPatternFrom_shift (pat : List Nat) :
    ∀ (l : List Nat) (i : Nat),
      BinaryParser.findPatternFrom pat l i
        = (BinaryParser.findPatternFrom pat l 0).map (· + i) := by
  intro l
  induction l with
  | nil => intro i; rfl
  | cons b bs ih =>
    intro i
    simp only [BinaryParser.findPatternFrom]
    by_cases h : ((b :: bs).take pat.length == pat) = true
    · simp [h]
    · simp only [h, if_false, Bool.false_eq_true]
      rw [ih (i + 1), ih 1]
      cases BinaryParser.findPatternFrom pat bs 0 <;> simp
      omega

/-- Unfolding `findPattern` one byte at a time: either the pattern
matches right here, or the scan continues one position later. -/
theorem findPattern_cons (pat : List Nat) (b : Nat) (l : List Nat) :
    BinaryParser.findPattern (b :: l) pat =
      if (b :: l).take pat.length = pat then some 0
      else (BinaryParser.findPattern l pat).map (· + 1) := by
  by_cases h : (b :: l).take pat.length = pat
  · simp [BinaryParser.findPattern, BinaryParser.findPatternFrom, h]
  · simp only [BinaryParser.findPattern, BinaryParser.findPatternFrom, if_neg h,
      beq_eq_false_iff_ne.2 h, Bool.false_eq_true, if_false]
    exact findPatternFrom_shift pat l 1

/-- A buffer that starts with the (non-empty) pattern matches at offset
zero — in particular the scan returns the lowest matching offset. -/
theorem findPattern_zero (l pat : List Nat) (hp : pat ≠ [])
    (h : l.take pat.length = pat) :
    BinaryParser.findPattern l pat = some 0 := by
  cases l with
  | nil =>
    exfalso
    exact hp (by simpa using h.symm)
  | cons b bs => simp [BinaryParser.findPattern, BinaryParser.findPatternFrom, h]

/-- A window that contains a non-zero byte is not the all-zero
terminator pattern. -/
theorem take50_ne_of_nonzero (l : List Nat) (k v : Nat) (hk : k < 50)
    (hget : l.get? k = some v) (hv : v ≠ 0) :
    ¬(l.take 50 = List.replicate 50 0) := by
  intro he
  have h1 : (l.take 50).get? k = some v := by rw [List.get?_take hk]; exact hget
  rw [he] at h1
  have h2 : (List.replicate 50 (0 : Nat)).get? k = some 0 := by
    rw [List.get?_eq_getElem?, List.getElem?_replicate, if_pos hk]
  rw [h2] at h1
  exact hv (Option.some_injective _ h1).symm

/-- A byte position whose 50-byte window is not all-zero pushes the
terminator scan one position to the right. -/
theorem firstRun_cons_blocked (b : Nat) (l : List Nat)
    (h : ¬((b :: l).take 50 = List.replicate 50 0)) :
    firstRun (b :: l) = (firstRun l).map (· + 1) := by
  unfold firstRun
  rw [findPattern_cons]
  rw [List.length_replicate, if_neg h]

/-- If every window starting inside a prefix `A` fails to be all-zero,
the terminator scan of `A ++ L` is the scan of `L` shifted by the length
of `A`. -/
theorem firstRun_append_blocked : ∀ (A L : List Nat),
    (∀ p, p < A.length → ¬(((A ++ L).drop p).take 50 = List.replicate 50 0)) →
    firstRun (A ++ L) = (firstRun L).map (· + A.length) := by
  intro A
  induction A with
  | nil =>
    intro L _
    cases h : firstRun L <;> simp [h]
  | cons a A ih =>
    intro L h
    have h0 := h 0 (by simp)
    rw [List.drop_zero] at h0
    rw [List.cons_append] at h0 ⊢
    rw [firstRun_cons_blocked a (A ++ L) h0]
    rw [ih L ?_]
    · cases firstRun L <;> simp
      omega
    · intro p hp
      have := h (p + 1) (by simp; omega)
      rw [List.cons_append, List.drop_succ_cons] at this
      exact this

/-- The terminator scan finds a long enough all-zero buffer at offset
zero. -/
theorem firstRun_replicate (m : Nat) (hm : 50 ≤ m) :
    firstRun (List.replicate m 0) = some 0 := by
  apply findPattern_zero
  · simp
  · rw [List.length_replicate, List.take_replicate]
    congr 1
    omega

/-- A list with some non-zero element has a non-zero element at a
definite position. -/
theorem exists_nonzero_get (id : List Nat) (h : id.any (fun b => b != 0) = true) :
    ∃ k v, k < id.length ∧ id.get? k = some v ∧ v ≠ 0 := by
  obtain ⟨x, hmem, hx⟩ := List.any_eq_true.1 h
  obtain ⟨n, hn⟩ := List.mem_iff_get?.1 hmem
  exact ⟨n, x, (List.get?_eq_some.1 hn).1, hn, by simpa using hx⟩

/-- The terminator scan on a short non-zero-tailed head followed by a
long zero run lands exactly at the end of the head. -/
theorem firstRun_core_trailing (u : List Nat) (m : Nat) (hm : 50 ≤ m)
    (hu : u.length ≤ 4) (hlast : ∀ v, u.getLast? = some v → v ≠ 0) :
    firstRun (u ++ List.replicate m 0) = some u.length := by
  rw [firstRun_append_blocked u _ ?_, firstRun_replicate m hm]
  · simp
  · intro p hp
    have hne : u ≠ [] := by
      intro he
      rw [he] at hp
      simp at hp
    obtain ⟨v, hv⟩ : ∃ v, u.getLast? = some v := by
      cases hg : u.getLast? with
      | none => exact absurd (List.getLast?_eq_none_iff.1 hg) hne
      | some v => exact ⟨v, rfl⟩
    have hvne := hlast v hv
    have hget : u.get? (u.length - 1) = some v := by
      rw [← List.getLast?_eq_get? u]
      exact hv
    apply take50_ne_of_nonzero _ (u.length - 1 - p) v _ _ hvne
    · omega
    · rw [List.get?_drop]
      rw [List.get?_append (by omega : p + (u.length - 1 - p) < u.length)]
      rw [show p + (u.length - 1 - p) = u.length - 1 by omega]
      exact hget

/-- Decomposition of a well-formed identifier into its non-zero-tailed
core and its trailing zero bytes. -/
theorem record_decomp (id : List Nat) (hid : goodId id) :
    ∃ u : List Nat, id = u ++ List.replicate (4 - coreLen id) 0
      ∧ u.length = coreLen id ∧ 1 ≤ coreLen id ∧ coreLen id ≤ 4
      ∧ (∀ v, u.getLast? = some v → v ≠ 0) := by
  obtain ⟨h4, hany⟩ := hid
  set r := id.reverse with hr
  set z := r.takeWhile (fun b => b == 0) with hz
  set u' := r.dropWhile (fun b => b == 0) with hu'
  have hsplit : z ++ u' = r := List.takeWhile_append_dropWhile _ _
  have hrlen : r.length = 4 := by rw [hr, List.length_reverse, h4]
  have hczero : ∀ b ∈ z, b = 0 := by
    intro b hb
    have := List.mem_takeWhile_imp hb
    simpa using this
  have hulen : u'.length = coreLen id := rfl
  have hcore_le : coreLen id ≤ 4 := by
    rw [← hulen]
    calc u'.length ≤ r.length := (List.dropWhile_sublist _).length_le
      _ = 4 := hrlen
  have hune : u' ≠ [] := by
    intro he
    have hall : ∀ x ∈ r, (fun b => b == 0) x = true := List.dropWhile_eq_nil_iff.1 he
    obtain ⟨k, v, _, hget, hvne⟩ := exists_nonzero_get id hany
    have hmem : v ∈ id := List.get?_mem hget
    have : v ∈ r := by rw [hr]; exact List.mem_reverse.2 hmem
    have := hall v this
    simp at this
    exact hvne this
  have hcore_ge : 1 ≤ coreLen id := by
    rw [← hulen]
    exact List.length_pos.2 hune
  have hzlen : z.length = 4 - coreLen id := by
    have := congrArg List.length hsplit
    rw [List.length_append, hrlen, hulen] at this
    omega
  refine ⟨u'.reverse, ?_, ?_, hcore_ge, hcore_le, ?_⟩
  · have hid_eq : id = u'.reverse ++ z.reverse := by
      calc id = r.reverse := by rw [hr, List.reverse_reverse]
        _ = (z ++ u').reverse := by rw [hsplit]
        _ = u'.reverse ++ z.reverse := List.reverse_append _ _
    have hrep : z.reverse = List.replicate (4 - coreLen id) 0 := by
      apply List.eq_replicate_iff.2
      refine ⟨by rw [List.length_reverse, hzlen], ?_⟩
      intro b hb
      exact hczero b (List.mem_reverse.1 hb)
    calc id = u'.reverse ++ z.reverse := hid_eq
      _ = u'.reverse ++ List.replicate (4 - coreLen id) 0 := by rw [hrep]
  · rw [List.length_reverse, hulen]
  · intro v hv hvz
    rw [List.getLast?_reverse] at hv
    have hhead : u'.head hune = v := by
      have := List.head?_eq_head hune
      rw [this] at hv
      exact (Option.some_injective _ hv)
    have := List.head_dropWhile_not (fun b => b == 0) r hune
    rw [hhead] at this
    subst hvz
    simp at this

/-- Prepending one well-formed record shifts the terminator scan by the
record width 16, provided the remainder also starts with a non-zero byte
among its first 4 positions (the next record's identifier): no all-zero
50-byte window can start inside the record. -/
theorem firstRun_record_cons (id L : List Nat) (hid : goodId id)
    (hL : ∃ k v, k < 4 ∧ L.get? k = some v ∧ v ≠ 0) :
    firstRun (record id ++ L) = (firstRun L).map (· + 16) := by
  have hlen : (record id).length = 16 := by
    simp [record, hid.1]
  have h := firstRun_append_blocked (record id) L ?_
  · rw [hlen] at h
    exact h
  · intro p hp
    rw [hlen] at hp
    obtain ⟨j, v0, hj, hjget, hv0⟩ := exists_nonzero_get id hid.2
    rw [hid.1] at hj
    obtain ⟨k0, v1, hk0, hk0get, hv1⟩ := hL
    rcases le_or_lt p j with hpj | hpj
    · apply take50_ne_of_nonzero _ (j - p) v0 (by omega) _ hv0
      rw [List.get?_drop, show p + (j - p) = j by omega]
      rw [List.get?_append (by omega : j < (record id).length)]
      rw [record, List.get?_append (by omega : j < id.length)]
      exact hjget
    · apply take50_ne_of_nonzero _ (16 + k0 - p) v1 (by omega) _ hv1
      rw [List.get?_drop, show p + (16 + k0 - p) = 16 + k0 by omega]
      rw [List.get?_append_right (by omega : (record id).length ≤ 16 + k0)]
      rw [hlen, show 16 + k0 - 16 = k0 by omega]
      exact hk0get

/-- The record region of a non-empty list of well-formed identifiers
starts with a non-zero byte among its first 4 positions, and therefore
so does anything obtained by appending to it. -/
theorem recordRegion_head_nonzero (hd : List Nat) (tl : List (List Nat))
    (hhd : goodId hd) (rest : List Nat) :
    ∃ k v, k < 4 ∧ (recordRegion (hd :: tl) ++ rest).get? k = some v ∧ v ≠ 0 := by
  obtain ⟨k, v, hk, hget, hv⟩ := exists_nonzero_get hd hhd.2
  rw [hhd.1] at hk
  refine ⟨k, v, hk, ?_, hv⟩
  have h1 : recordRegion (hd :: tl) = record hd ++ recordRegion tl := by
    simp [recordRegion]
  rw [h1, List.append_assoc]
  rw [List.get?_append (by simp [record, hhd.1]; omega : k < (record hd).length)]
  rw [record, List.get?_append (by omega : k < hd.length)]
  exact hget

/-- Terminator-scan position for a full synthetic record region: with
well-formed identifiers and 12-zero record tails, the first all-zero
50-byte window begins inside the last record, right after the last
non-zero identifier byte. -/
theorem firstRun_recordRegion : ∀ (ids : List (List Nat)) (id : List Nat),
    goodId id → (∀ i ∈ ids, goodId i) →
    firstRun (recordRegion (ids ++ [id]) ++ List.replicate 50 0)
      = some (16 * ids.length + coreLen id) := by
  intro ids
  induction ids with
  | nil =>
    intro id hid _
    obtain ⟨u, hdecomp, hulen, hge1, hle4, hlast⟩ := record_decomp id hid
    set c := coreLen id with hc
    have heq : recordRegion [id] ++ List.replicate 50 0
        = u ++ List.replicate (4 - c + (12 + 50)) 0 := by
      rw [show (recordRegion [id] : List Nat) = record id by simp [recordRegion]]
      rw [record, hdecomp]
      rw [List.replicate_add, List.replicate_add, List.append_assoc, List.append_assoc]
    rw [List.nil_append, heq, firstRun_core_trailing u _ (by omega) (by omega) hlast, hulen]
    simp
  | cons id0 rest ih =>
    intro id hid hall
    have h0 : goodId id0 := hall id0 (by simp)
    have hrest : ∀ i ∈ rest, goodId i := fun i hi => hall i (by simp [hi])
    have hsplit : recordRegion ((id0 :: rest) ++ [id]) ++ List.replicate 50 0
        = record id0 ++ (recordRegion (rest ++ [id]) ++ List.replicate 50 0) := by
      simp [recordRegion]
    rw [hsplit]
    have hfirst4 : ∃ k v, k < 4
        ∧ (recordRegion (rest ++ [id]) ++ List.replicate 50 0).get? k = some v ∧ v ≠ 0 := by
      cases rest with
      | nil => exact recordRegion_head_nonzero id [] hid _
      | cons id1 rest' =>
        exact recordRegion_head_nonzero id1 (rest' ++ [id]) (hrest id1 (by simp)) _
    rw [firstRun_record_cons id0 _ h0 hfirst4]
    rw [ih id hid hrest]
    simp only [Option.map_some', List.length_cons]
    congr 1
    ring

/-- The identifier rendered from a chunk depends only on its first 4
bytes (`idBytes.slice(0, 4)`). -/
theorem convertIdToHex_take4 (l1 l2 : List Nat) (h : l1.take 4 = l2.take 4) :
    BinaryParser.convertIdToHex l1 = BinaryParser.convertIdToHex l2 := by
  unfold BinaryParser.convertIdToHex
  rw [h]

/-- A non-empty list no longer than the chunk size is one single chunk. -/
theorem splitIntoChunks_single (l : List Nat) (n : Nat) (h1 : l ≠ [])
    (h2 : l.length ≤ n + 1) : BinaryParser.splitIntoChunks l (n + 1) = [l] := by
  rw [splitIntoChunks_cons l n h1, List.take_all_of_le h2,
    List.drop_eq_nil_of_le h2, splitIntoChunks_nil]

/-- Length of a record region: 16 bytes per record. -/
theorem recordRegion_length (ids : List (List Nat))
    (h : ∀ i ∈ ids, goodId i) : (recordRegion ids).length = 16 * ids.length := by
  induction ids with
  | nil => rfl
  | cons i rest ih =>
    have hi : goodId i := h i (by simp)
    have hrest := ih (fun j hj => h j (by simp [hj]))
    rw [show recordRegion (i :: rest) = record i ++ recordRegion rest by simp [recordRegion]]
    rw [List.length_append, hrest]
    simp [record, hi.1]
    ring

/-- Bounds on the core length of a well-formed identifier. -/
theorem coreLen_bounds (id : List Nat) (hid : goodId id) :
    1 ≤ coreLen id ∧ coreLen id ≤ 4 := by
  obtain ⟨u, _, _, h1, h4, _⟩ := record_decomp id hid
  exact ⟨h1, h4⟩

/-- Decoding the located byte range of a synthetic record region: one
identifier per record, each rendered from the record's first 4 bytes;
the last chunk is partial (the terminator scan cuts inside the last
record's zero tail) but still holds the full 4 identifier bytes. -/
theorem chunks_decode : ∀ (ids : List (List Nat)) (id : List Nat),
    goodId id → (∀ i ∈ ids, goodId i) →
    (BinaryParser.splitIntoChunks
        ((recordRegion (ids ++ [id])).take (16 * ids.length + coreLen id + 6)) 16).map
      BinaryParser.convertIdToHex
      = (ids ++ [id]).map BinaryParser.convertIdToHex := by
  intro ids
  induction ids with
  | nil =>
    intro id hid _
    obtain ⟨hc1, hc4⟩ := coreLen_bounds id hid
    have hrr : recordRegion [id] = record id := by simp [recordRegion]
    have hlen : (record id).length = 16 := by simp [record, hid.1]
    set c := coreLen id with hc
    have hchunk : BinaryParser.splitIntoChunks ((record id).take (c + 6)) 16
        = [(record id).take (c + 6)] := by
      apply splitIntoChunks_single
      · have : ((record id).take (c + 6)).length = c + 6 := by
          rw [List.length_take, hlen]
          omega
        intro he
        rw [he] at this
        simp at this
      · rw [List.length_take, hlen]
        omega
    simp only [List.nil_append, hrr, List.length_nil, Nat.mul_zero, Nat.zero_add, hchunk,
      List.map_cons, List.map_nil]
    congr 1
    apply convertIdToHex_take4
    rw [List.take_take, show min 4 (c + 6) = 4 by omega]
    rw [record, List.take_append_of_le_length (by omega : 4 ≤ id.length)]
  | cons id0 rest ih =>
    intro id hid hall
    have h0 : goodId id0 := hall id0 (by simp)
    have hrest : ∀ i ∈ rest, goodId i := fun i hi => hall i (by simp [hi])
    have hlen0 : (record id0).length = 16 := by simp [record, h0.1]
    have hsplit : recordRegion ((id0 :: rest) ++ [id])
        = record id0 ++ recordRegion (rest ++ [id]) := by simp [recordRegion]
    have harith : 16 * (id0 :: rest).length + coreLen id + 6
        = (record id0).length + (16 * rest.length + coreLen id + 6) := by
      rw [hlen0, List.length_cons]
      ring
    rw [hsplit, harith, List.take_append]
    set Y := (recordRegion (rest ++ [id])).take (16 * rest.length + coreLen id + 6) with hY
    have htake : (record id0 ++ Y).take 16 = record id0 := by
      rw [← hlen0]
      exact List.take_left _ _
    have hdrop : (record id0 ++ Y).drop 16 = Y := by
      rw [← hlen0]
      exact List.drop_left _ _
    have hcons : BinaryParser.splitIntoChunks (record id0 ++ Y) 16
        = record id0 :: BinaryParser.splitIntoChunks Y 16 := by
      rw [splitIntoChunks_cons _ 15 (by
        intro he
        have := congrArg List.length he
        rw [List.length_append, hlen0] at this
        simp at this)]
      rw [show (15 + 1 : Nat) = 16 from rfl, htake, hdrop]
    rw [hcons, List.map_cons, ih id hid hrest, List.cons_append, List.map_cons]
    congr 1
    apply convertIdToHex_take4
    rw [record, List.take_append_of_le_length (by omega : 4 ≤ id0.length)]

/-- Claim C3, counterexample: a synthetic slot with the standard marker,
the fixed 8-byte skip, exactly ONE well-formed 16-byte record (identifier
bytes `EF BE AD DE`, the 12 unused tail bytes set to `0xFF`) and the
50-zero terminator decodes to TWO identifiers, not one: the terminator
run starts only after the whole record, so the located range is the
record plus 6 terminator bytes, and the 6 trailing zero bytes form a
second (partial) chunk decoded as "00000000". -/
theorem c3_counterexample :
    BinaryParser.getInventory slotTailFF = some (invTailFF, false)
    ∧ BinaryParser.decodeIds invTailFF false = ["DEADBEEF", "00000000"]
    ∧ ¬(BinaryParser.decodeIds invTailFF false).length = 1 := by
  refine ⟨by decide, by decide, by decide⟩

/-- Claim C3, amended: for every non-empty list of records whose
identifier bytes are 4 bytes with at least one non-zero and whose 12
unused tail bytes are zero (as in the spec's §8 concrete scenario),
decoding the synthetic slot — standard marker, the fixed 8-byte skip,
the records in order, the 50-zero terminator — yields exactly N
identifiers, the k-th being the big-endian hex rendering of the k-th
record's first 4 little-endian bytes, with the standard layout.  (With a
non-zero record tail the terminator scan can shift and produce an extra
spurious identifier; see the counterexample.) -/
theorem c3_standard_records (ids : List (List Nat)) (pad : List Nat)
    (hne : ids ≠ []) (hgood : ∀ id ∈ ids, goodId id) (hpad : pad.length = 8) :
    ∃ inventoryData,
      BinaryParser.getInventory
          (BinaryParser.PATTERN_NORMAL ++ pad ++ recordRegion ids ++ List.replicate 50 0)
        = some (inventoryData, false)
      ∧ BinaryParser.decodeIds inventoryData false
          = ids.map BinaryParser.convertIdToHex
      ∧ (BinaryParser.decodeIds inventoryData false).length = ids.length := by
  rcases List.eq_nil_or_concat ids with rfl | ⟨ids0, id, rfl⟩
  · exact absurd rfl hne
  rw [List.concat_eq_append] at hgood ⊢
  have hid : goodId id := hgood id (by simp)
  have hids0 : ∀ i ∈ ids0, goodId i := fun i hi => hgood i (by simp [hi])
  set slot := BinaryParser.PATTERN_NORMAL ++ pad
      ++ recordRegion (ids0 ++ [id]) ++ List.replicate 50 0 with hslot
  have hfind : BinaryParser.findPattern slot BinaryParser.PATTERN_NORMAL = some 0 := by
    apply findPattern_zero _ _ (by decide)
    rw [hslot]
    exact List.take_left _ _
  have hdrop : slot.drop 16 = recordRegion (ids0 ++ [id]) ++ List.replicate 50 0 := by
    rw [hslot]
    rw [show (16 : Nat) = (BinaryParser.PATTERN_NORMAL ++ pad).length by
      rw [List.length_append, hpad]; rfl]
    rw [List.append_assoc (BinaryParser.PATTERN_NORMAL ++ pad)]
    exact List.drop_left _ _
  have hrun : BinaryParser.findPattern (slot.drop 16) (List.replicate 50 0)
      = some (16 * ids0.length + coreLen id) := by
    rw [hdrop]
    exact firstRun_recordRegion ids0 id hid hids0
  have hinv : (slot.drop 16).take (16 * ids0.length + coreLen id + 6)
      = (recordRegion (ids0 ++ [id])).take (16 * ids0.length + coreLen id + 6) := by
    rw [hdrop]
    apply List.take_append_of_le_length
    rw [recordRegion_length _ hgood, List.length_append]
    have := (coreLen_bounds id hid).2
    simp
    omega
  refine ⟨(slot.drop 16).take (16 * ids0.length + coreLen id + 6), ?_, ?_, ?_⟩
  · have hstep : BinaryParser.getInventory slot
        = BinaryParser.endScan slot (0 + 8 + 8) false := by
      unfold BinaryParser.getInventory
      rw [hfind]
    rw [hstep]
    unfold BinaryParser.endScan
    rw [show (0 + 8 + 8 : Nat) = 16 from rfl, hrun]
  · unfold BinaryParser.decodeIds
    rw [if_neg (by simp)]
    rw [hinv]
    exact chunks_decode ids0 id hid hids0
  · unfold BinaryParser.decodeIds
    rw [if_neg (by simp)]
    rw [hinv]
    have := congrArg List.length (chunks_decode ids0 id hid hids0)
    simpa using this

/-- Claim C3, amended, witness: the spec's §8 concrete scenario — one
record with identifier bytes `EF BE AD DE` and zero tail — decodes to
exactly the identifier list `["DEADBEEF"]` with the standard layout. -/
theorem c3_standard_records_witness :
    ∃ inventoryData,
      BinaryParser.getInventory slotScenario = some (inventoryData, false)
      ∧ BinaryParser.decodeIds inventoryData false = ["DEADBEEF"]
      ∧ (BinaryParser.decodeIds inventoryData false).length = 1 := by
  have h := c3_standard_records [[0xEF, 0xBE, 0xAD, 0xDE]] (List.replicate 8 0)
    (by simp) (by decide) (by decide)
  obtain ⟨inv, h1, h2, h3⟩ := h
  refine ⟨inv, ?_, ?_, ?_⟩
  · rw [← h1]
    congr 1
  · rw [h2]
    decide
  · rw [h3]
    decide

end Verification














